import Mathlib

/-!
Verification of the qapper port scanner (src/ports.rs, src/scanner.rs, src/main.rs)
against its natural-language design specification.

The Rust source is shallowly embedded below.  Machine integers (`u16`, `usize`)
are modelled as `Nat`; the one place where 16-bit overflow is observable
(the `reserve((upper - lower + 1).into())` call in `Ports::from_str`) is modelled
explicitly, under the two integer-overflow profiles Rust defines: with overflow
checks (the dev/debug profile, where overflow aborts) and without (the release
profile, where the value wraps modulo 2^16).  A `panic!`-style abort (from
`assert!` or an arithmetic overflow check) is a distinct outcome from an `Err`
value returned to the caller, so the result type of parsing has three
constructors.
-/

/-- Outcome of `<Ports as FromStr>::from_str` (src/ports.rs lines 16-38).
`ok` is `Ok(Ports(vec))`, `err` is `Err(ParseIntError)` (returned to the
caller), and `fatal` is a process abort: either the `assert!` on an inverted
range or an arithmetic-overflow check firing. -/
inductive ParseResult where
  | ok (ports : List Nat)
  | err
  | fatal (msg : String)
deriving DecidableEq

/-- Model of `str::parse::<u16>()` (Rust core `from_str_radix` for an unsigned
integer): an optional leading `+`, then one or more decimal digits, value at
most `u16::MAX`; anything else is `Err(ParseIntError)` (`none` here).
Rust checks overflow digit-by-digit; for digit strings that is equivalent to
comparing the final value against the bound, since the accumulator is
monotone. -/
def parseU16 (cs : List Char) : Option Nat :=
  match cs with
  | [] => none
  | c :: rest =>
    let ds := if c = '+' then rest else c :: rest
    if ds.isEmpty then none
    else if ds.all (fun d => d.isDigit) then
      let v := ds.foldl (fun acc d => acc * 10 + (d.toNat - 48)) 0
      if v ≤ 65535 then some v else none
    else none

/-- Helper for `splitChar`: returns the group of characters before the first
separator boundary and the remaining groups. -/
def splitCharAux (sep : Char) : List Char → List Char × List (List Char)
  | [] => ([], [])
  | c :: rest =>
    if c = sep then ([], (splitCharAux sep rest).1 :: (splitCharAux sep rest).2)
    else (c :: (splitCharAux sep rest).1, (splitCharAux sep rest).2)

/-- Model of Rust `str::split(sep)`: splits at every occurrence of `sep`;
an empty string yields one empty group, as in Rust. -/
def splitChar (sep : Char) (cs : List Char) : List (List Char) :=
  (splitCharAux sep cs).1 :: (splitCharAux sep cs).2

/-- Model of Rust `str::split_once(sep)`: splits at the first occurrence of
`sep`, or returns `none` when `sep` does not occur. -/
def splitOnce (sep : Char) : List Char → Option (List Char × List Char)
  | [] => none
  | c :: rest =>
    if c = sep then some ([], rest)
    else
      match splitOnce sep rest with
      | some (l, r) => some (c :: l, r)
      | none => none

/-- One iteration of the token loop of `<Ports as FromStr>::from_str`
(src/ports.rs lines 19-34), as the list of ports the token appends.  If the
token contains `-`, both sides are parsed as `u16` (`?` returns the parse
error), then `assert!(lower <= upper)` (a panic, not an error value), then
`reserve((upper - lower + 1).into())` — whose `u16` addition overflows exactly
when `lower = 0` and `upper = 65535`; with overflow checks (`checked = true`)
that is an abort, without them the wrapped value is only a capacity hint with
no observable effect — then the token extends the vector with `lower..=upper`.
A token without `-` is parsed as a single `u16` and pushed. -/
def parseToken (checked : Bool) (part : List Char) : ParseResult :=
  match splitOnce '-' part with
  | some (lower, upper) =>
    match parseU16 lower, parseU16 upper with
    | some lo, some hi =>
      if lo ≤ hi then
        if checked = true ∧ 65536 ≤ hi - lo + 1 then .fatal "attempt to add with overflow"
        else .ok (List.range' lo (hi - lo + 1))
      else .fatal "Expected port range lower limit be lower than upper limit!"
    | _, _ => .err
  | none =>
    match parseU16 part with
    | some p => .ok [p]
    | none => .err

/-- The token loop of `<Ports as FromStr>::from_str` (src/ports.rs lines
17-35): fold `parseToken` over the comma-separated tokens, accumulating into
`parsed`; the first token-level error or abort ends the loop with that
outcome. -/
def Ports.fromStrAux (checked : Bool) : List (List Char) → List Nat → ParseResult
  | [], parsed => .ok parsed
  | part :: rest, parsed =>
    match parseToken checked part with
    | .ok items => Ports.fromStrAux checked rest (parsed ++ items)
    | r => r

/-- `Ports::from_str` on a character list: split on `,` and run the token
loop with an empty accumulator. -/
def Ports.fromStrL (checked : Bool) (cs : List Char) : ParseResult :=
  Ports.fromStrAux checked (splitChar ',' cs) []

/-- `Ports::from_str` as built by `cargo`'s dev profile (integer overflow
checks on, so the `reserve` computation can abort). -/
def Ports.fromStr (s : String) : ParseResult :=
  Ports.fromStrL true s.data

/-- `Ports::from_str` as built by the release profile (overflow wraps; the
wrapped value only feeds `Vec::reserve`, so it has no observable effect). -/
def Ports.fromStrRelease (s : String) : ParseResult :=
  Ports.fromStrL false s.data

/-- `PortsStatus` (src/ports.rs lines 41-45): the per-address record of open
and closed ports.  The Rust fields are named `open` and `closed`; `open` is a
Lean keyword, so they are `openPorts` and `closedPorts` here. -/
structure PortsStatus where
  openPorts : List Nat
  closedPorts : List Nat
deriving DecidableEq

/-- `PortsStatus::new` (src/ports.rs lines 48-53).  The `num_ports` argument
only sizes `Vec::with_capacity` and has no observable effect, so it is
dropped. -/
def PortsStatus.new : PortsStatus :=
  { openPorts := [], closedPorts := [] }

/-- `PortsStatus::record` (src/ports.rs lines 55-61): push the port onto the
open list when `open` holds, otherwise onto the closed list. -/
def PortsStatus.record (s : PortsStatus) (port : Nat) (opn : Bool) : PortsStatus :=
  if opn then { s with openPorts := s.openPorts ++ [port] }
  else { s with closedPorts := s.closedPorts ++ [port] }

/-- `PortsStatus::sort` (src/ports.rs lines 63-66): `Vec::sort` is a stable
ascending sort; `List.insertionSort` is stable and sorts ascending. -/
def PortsStatus.sort (s : PortsStatus) : PortsStatus :=
  { openPorts := List.insertionSort (· ≤ ·) s.openPorts,
    closedPorts := List.insertionSort (· ≤ ·) s.closedPorts }

/-- The body of the `for` loop in `PortsStatus::fmt_vec` (src/ports.rs lines
70-80), acting on the state `(start, written-so-far)` for one zipped item
`(prev, idx, now)`.  Writes via `write!` are modelled as string appends. -/
def fmtStep (vec : List Nat) (st : Nat × String) (pr : Nat × Nat × Nat) : Nat × String :=
  let (start, acc) := st
  let (prev, idx, now) := pr
  if now - prev > 1 then
    if start = idx - 1 then (idx, acc ++ toString prev ++ ",")
    else (idx, acc ++ toString (vec.getD start 0) ++ "-" ++ toString prev ++ ",")
  else (start, acc)

/-- The sequence iterated by `vec.iter().zip(vec.iter().enumerate().skip(1))`
in `fmt_vec`: items `(vec[i], i+1, vec[i+1])`.  Defined structurally with the
running index `i`; `fmtVecPairs 0 vec` is the zipped sequence. -/
def fmtVecPairs (i : Nat) : List Nat → List (Nat × Nat × Nat)
  | a :: b :: rest => (a, i + 1, b) :: fmtVecPairs (i + 1) (b :: rest)
  | _ => []

/-- The two `write!` calls after the loop in `fmt_vec` (src/ports.rs lines
82-86), flushing the final run.  The source indexes `vec[start]` and
`vec[vec.len() - 1]` unguarded (it is only called on non-empty vectors);
`getD` with default 0 stands in for the panicking index. -/
def finalRender (vec : List Nat) (st : Nat × String) : String :=
  if st.1 = vec.length - 1 then st.2 ++ toString (vec.getD st.1 0)
  else st.2 ++ toString (vec.getD st.1 0) ++ "-" ++ toString (vec.getD (vec.length - 1) 0)

/-- `PortsStatus::fmt_vec` (src/ports.rs lines 68-87).  Note the gap test
`now - prev > 1` is `u16` subtraction; on the sorted inputs it is called with,
`prev ≤ now` so `Nat` truncated subtraction agrees with it. -/
def fmt_vec (vec : List Nat) : String :=
  finalRender vec ((fmtVecPairs 0 vec).foldl (fmtStep vec) (0, ""))

/-- One list as rendered by `<PortsStatus as Display>::fmt` (src/ports.rs
lines 90-107): `fmt_vec` when the list is non-empty, the literal string
when it is empty. -/
def fmtList (vec : List Nat) : String :=
  if vec.isEmpty then "none" else fmt_vec vec

/-- `<PortsStatus as Display>::fmt` (src/ports.rs lines 90-107) in full. -/
def PortsStatus.display (s : PortsStatus) : String :=
  "open: " ++ fmtList s.openPorts ++ ";" ++ "closed: " ++ fmtList s.closedPorts

/-- Helper for the equivalence proofs: the same rendering as `fmt_vec`, but
carried structurally.  `lo` is the value at the start of the current run,
`prev` the last value seen, `single` whether the current run still has exactly
one element (the loop's `start == idx - 1` test). -/
def collapse : Nat → Nat → Bool → List Nat → String
  | lo, prev, single, [] =>
    if single then toString lo else toString lo ++ "-" ++ toString prev
  | lo, prev, single, now :: rest =>
    if now - prev > 1 then
      (if single then toString prev ++ "," else toString lo ++ "-" ++ toString prev ++ ",") ++
        collapse now now true rest
    else collapse lo now false rest

/-- Following the specification's wording for the formatter: decompose a
sorted list into maximal runs of consecutive integer values, each recorded as
a `(lo, hi)` pair.  A new element extends the current run exactly when it is
the successor of the run's current high end. -/
def specRunsAux (lo hi : Nat) : List Nat → List (Nat × Nat)
  | [] => [(lo, hi)]
  | now :: rest =>
    if now = hi + 1 then specRunsAux lo now rest
    else (lo, hi) :: specRunsAux now now rest

/-- Maximal runs of consecutive integer values of a list (specification
wording, section 4.4). -/
def specRuns : List Nat → List (Nat × Nat)
  | [] => []
  | p :: rest => specRunsAux p p rest

/-- Specification wording: a run of length one is rendered as a bare number,
a longer run as a `lo-hi` range token. -/
def renderRun (r : Nat × Nat) : String :=
  if r.1 = r.2 then toString r.1 else toString r.1 ++ "-" ++ toString r.2

/-- Comma-join of rendered tokens. -/
def joinComma : List String → String
  | [] => ""
  | [a] => a
  | a :: b :: rest => a ++ "," ++ joinComma (b :: rest)

/-- The formatter as the specification words it (section 4.4): an empty list
renders as the literal string, otherwise the maximal runs of consecutive
values are rendered and comma-joined. -/
def specFormat (l : List Nat) : String :=
  if l.isEmpty then "none" else joinComma ((specRuns l).map renderRun)

/-- The decomposition of a list into the runs the loop of `fmt_vec` actually
produces: a new element extends the current run exactly when the gap test
`now - prev > 1` fails, so equal adjacent values stay in one run.  Each run
is recorded as `(lo, hi, single)`: its first value, its last value, and
whether it has exactly one element (the loop's `start == idx - 1` test). -/
def gapRunsAux (lo prev : Nat) (single : Bool) : List Nat → List (Nat × Nat × Bool)
  | [] => [(lo, prev, single)]
  | now :: rest =>
    if now - prev > 1 then (lo, prev, single) :: gapRunsAux now now true rest
    else gapRunsAux lo now false rest

/-- The runs of a list under `fmt_vec`'s gap test. -/
def gapRuns : List Nat → List (Nat × Nat × Bool)
  | [] => []
  | p :: rest => gapRunsAux p p true rest

/-- How `fmt_vec` renders one of its runs: a run of exactly one element is a
bare number; any longer run — including one consisting of equal values — is a
single `lo-hi` range token. -/
def renderGapRun (r : Nat × Nat × Bool) : String :=
  if r.2.2 then toString r.1 else toString r.1 ++ "-" ++ toString r.2.1

/-- Target addresses (`std::net::IpAddr`, src/scanner.rs) are opaque values
compared for equality only; a `Nat` stands in for one. -/
abbrev Addr := Nat

/-- A connect-level `io::Error`.  Only its presence matters for
classification; the constructor records whether it was an active refusal. -/
inductive IoErr where
  | connectionRefused
  | other
deriving DecidableEq

/-- The value `res` in `ScannerInner::check_port` (src/scanner.rs lines
141-145): `timeout(..., TcpStream::connect(...)).await` has type
`Result<io::Result<TcpStream>, Elapsed>`.  The outer `Except` error is the
elapsed deadline; the inner one is the connect result (a stream on success,
an `io::Error` such as a refusal otherwise). -/
abbrev ConnectRes := Except Unit (Except IoErr Unit)

/-- `ScannerInner::check_port` (src/scanner.rs lines 140-152): after awaiting
the bounded connect, an unexpected inner error is logged, and the returned
classification is `(port, res.is_ok())` — true exactly when the deadline did
not elapse, regardless of the inner connect result. -/
def ScannerInner.check_port (port : Nat) (res : ConnectRes) : Nat × Bool :=
  (port, res.isOk)

/-- The probe identifier computed in `PortScanner::scan` (src/scanner.rs line
45): `(idx % (u16::MAX as usize)) as u16`.  `u16::MAX` is 65535; the `as u16`
cast truncates modulo 2^16 (a no-op here, kept for fidelity). -/
def probeId (idx : Nat) : Nat :=
  (idx % 65535) % 65536

/-- The network environment a scan runs against: what `ScannerInner::ping`
returns for each address (`Some(rtt)` on an echo reply, `None` on any
failure), and how a bounded `TcpStream::connect` to each (address, port)
resolves.  Reachability is a property of the address; the ICMP identifier
only correlates request and reply and does not affect it. -/
structure ScanEnv where
  probe : Addr → Option Nat
  connect : Addr → Nat → ConnectRes

/-- `ScannerInner::scan_ip` (src/scanner.rs lines 117-138), as the sequence
of `(address, port, open)` triples it hands to the result channel.  A failed
ping returns early with no messages and no port tasks; otherwise one connect
task per entry of the port list is spawned and its `check_port` outcome sent
(the handles are awaited in spawn order, so the sends are in port-list
order). -/
def ScannerInner.scan_ip (env : ScanEnv) (ports : List Nat) (ip : Addr) :
    List (Addr × Nat × Bool) :=
  match env.probe ip with
  | none => []
  | some _ => ports.map (fun port => (ip, port, (ScannerInner.check_port port (env.connect ip port)).2))

/-- All messages produced into the shared channel by the per-address tasks
spawned in `PortScanner::scan` (src/scanner.rs lines 40-48), in address-list
order.  The tasks race, so the channel delivers some interleaving of the
per-address sequences; theorems below quantify over every permutation of this
list, which covers every interleaving. -/
def allOutcomes (env : ScanEnv) (ports : List Nat) : List Addr → List (Addr × Nat × Bool)
  | [] => []
  | a :: rest => ScannerInner.scan_ip env ports a ++ allOutcomes env ports rest

/-- The consuming loop of `PortScanner::scan` (src/scanner.rs lines 53-60):
each received `(ip, port, open)` is folded into the map with
`map.entry(*ip).or_insert(PortsStatus::new(...)).record(port, open)` (the
`on_checked` observer callback does not touch the map).  The map is modelled
as a function to `Option PortsStatus`. -/
def foldOutcomes : List (Addr × Nat × Bool) → (Addr → Option PortsStatus) → Addr → Option PortsStatus
  | [], m => m
  | (ip, port, opn) :: rest, m =>
    foldOutcomes rest
      (fun a => if a = ip then some (((m ip).getD PortsStatus.new).record port opn) else m a)

/-- `PortScanner::scan` (src/scanner.rs lines 37-67) given the drained channel
contents `msgs`: fold every message into the map, then sort every status
(src/scanner.rs lines 62-64) and return the map. -/
def PortScanner.scan (msgs : List (Addr × Nat × Bool)) : Addr → Option PortsStatus :=
  fun a => (foldOutcomes msgs (fun _ => none) a).map PortsStatus.sort

/-- Projection of one side of a possibly-absent status: the open list when
`b` is true, the closed list otherwise; an absent entry reads as the empty
lists of `PortsStatus::new`. -/
def sideOf (b : Bool) (o : Option PortsStatus) : List Nat :=
  if b then (o.getD PortsStatus.new).openPorts else (o.getD PortsStatus.new).closedPorts

theorem fromStrAux_acc (checked : Bool) :
    ∀ (ts : List (List Char)) (acc : List Nat),
      Ports.fromStrAux checked ts acc =
        match Ports.fromStrAux checked ts [] with
        | .ok l => .ok (acc ++ l)
        | r => r := by
  intro ts
  induction ts with
  | nil => intro acc; simp [Ports.fromStrAux]
  | cons part rest ih =>
    intro acc
    simp only [Ports.fromStrAux]
    cases h : parseToken checked part with
    | ok items =>
      dsimp only
      rw [ih (acc ++ items), ih ([] ++ items)]
      cases Ports.fromStrAux checked rest [] <;> simp
    | err => rfl
    | fatal msg => rfl

theorem fromStrAux_append (checked : Bool) :
    ∀ (ts1 ts2 : List (List Char)) (acc : List Nat),
      Ports.fromStrAux checked (ts1 ++ ts2) acc =
        match Ports.fromStrAux checked ts1 acc with
        | .ok l => Ports.fromStrAux checked ts2 l
        | r => r := by
  intro ts1
  induction ts1 with
  | nil =>
    intro ts2 acc
    simp only [List.nil_append, Ports.fromStrAux]
  | cons part rest ih =>
    intro ts2 acc
    simp only [List.cons_append, Ports.fromStrAux]
    cases h : parseToken checked part with
    | ok items => dsimp only; exact ih ts2 _
    | err => rfl
    | fatal msg => rfl

theorem splitCharAux_append (sep : Char) :
    ∀ (l1 l2 : List Char),
      splitCharAux sep (l1 ++ sep :: l2) =
        ((splitCharAux sep l1).1, (splitCharAux sep l1).2 ++ splitChar sep l2) := by
  intro l1
  induction l1 with
  | nil => intro l2; simp [splitCharAux, splitChar]
  | cons c rest ih =>
    intro l2
    simp only [List.cons_append, splitCharAux, ih l2, splitChar]
    by_cases h : c = sep <;> simp [h, splitCharAux, ih l2, splitChar]

theorem splitChar_append (sep : Char) (l1 l2 : List Char) :
    splitChar sep (l1 ++ sep :: l2) = splitChar sep l1 ++ splitChar sep l2 := by
  simp [splitChar, splitCharAux_append]

theorem splitCharAux_of_no_sep (sep : Char) :
    ∀ (cs : List Char), (∀ c ∈ cs, c ≠ sep) → splitCharAux sep cs = (cs, []) := by
  intro cs
  induction cs with
  | nil => intro _; rfl
  | cons c rest ih =>
    intro h
    simp only [splitCharAux, ih (fun d hd => h d (List.mem_cons_of_mem c hd))]
    simp [h c (List.mem_cons_self c rest)]

theorem splitChar_of_no_sep (sep : Char) (cs : List Char) (h : ∀ c ∈ cs, c ≠ sep) :
    splitChar sep cs = [cs] := by
  simp [splitChar, splitCharAux_of_no_sep sep cs h]

theorem splitOnce_append (sep : Char) :
    ∀ (s t : List Char), (∀ c ∈ s, c ≠ sep) →
      splitOnce sep (s ++ sep :: t) = some (s, t) := by
  intro s
  induction s with
  | nil => intro t _; simp [splitOnce]
  | cons c rest ih =>
    intro t h
    simp only [List.cons_append, splitOnce]
    rw [if_neg (h c (List.mem_cons_self c rest))]
    simp only [List.append_eq]
    rw [ih t (fun d hd => h d (List.mem_cons_of_mem c hd))]

theorem parseU16_chars :
    ∀ (cs : List Char) (v : Nat), parseU16 cs = some v →
      ∀ c ∈ cs, c = '+' ∨ c.isDigit = true := by
  intro cs v h c hc
  cases cs with
  | nil => simp [parseU16] at h
  | cons c0 rest =>
    simp only [parseU16] at h
    by_cases h0 : c0 = '+'
    · simp only [if_pos h0] at h
      rcases List.mem_cons.mp hc with hceq | hcr
      · exact Or.inl (hceq.trans h0)
      · right
        by_cases he : rest.isEmpty
        · simp [he] at h
        · by_cases ha : rest.all (fun d => d.isDigit)
          · exact List.all_eq_true.mp ha c hcr
          · simp [he, ha] at h
    · simp only [if_neg h0] at h
      by_cases ha : (c0 :: rest).all (fun d => d.isDigit)
      · exact Or.inr (List.all_eq_true.mp ha c hc)
      · simp [ha] at h

theorem chain'_lt_range' : ∀ (n lo : Nat), List.Chain' (· < ·) (List.range' lo n) := by
  intro n
  induction n with
  | zero => intro lo; exact List.chain'_nil
  | succ m ih =>
    intro lo
    cases m with
    | zero => exact List.chain'_singleton lo
    | succ m' =>
      rw [List.range'_succ]
      rw [List.chain'_cons' ]
      constructor
      · intro y hy
        rw [List.range'_succ] at hy
        simp at hy
        omega
      · exact ih (lo + 1)

/-- Character-level consequence of a successful `u16` parse: the token
contains no comma and no dash, so surrounding `split` calls cannot cut it. -/
theorem parseU16_no_sep (cs : List Char) (v : Nat) (h : parseU16 cs = some v) :
    ∀ c ∈ cs, c ≠ ',' ∧ c ≠ '-' := by
  intro c hc
  rcases parseU16_chars cs v h c hc with h1 | h1
  · subst h1; exact ⟨by decide, by decide⟩
  · constructor
    · intro he; subst he; simp at h1
    · intro he; subst he; simp at h1

/-- Successful parses concatenate: if two specification strings parse to `l1`
and `l2`, their comma-joined concatenation parses to `l1 ++ l2` — token order
is input order, and duplicate specifications are preserved, not deduplicated. -/
theorem fromStrL_append (checked : Bool) (cs1 cs2 : List Char) (l1 l2 : List Nat)
    (h1 : Ports.fromStrL checked cs1 = .ok l1) (h2 : Ports.fromStrL checked cs2 = .ok l2) :
    Ports.fromStrL checked (cs1 ++ ',' :: cs2) = .ok (l1 ++ l2) := by
  unfold Ports.fromStrL at h1 h2 ⊢
  rw [splitChar_append]
  rw [fromStrAux_append, h1]
  dsimp only
  rw [fromStrAux_acc, h2]

/-- A single range token `s-t` whose two sides parse to `lo ≤ hi` (and whose
reserve computation does not overflow) expands to exactly the ascending block
`lo, lo+1, ..., hi`. -/
theorem fromStrL_range (checked : Bool) (s t : List Char) (lo hi : Nat)
    (hs : parseU16 s = some lo) (ht : parseU16 t = some hi)
    (hle : lo ≤ hi) (hov : hi - lo + 1 < 65536) :
    Ports.fromStrL checked (s ++ '-' :: t) = .ok (List.range' lo (hi - lo + 1)) := by
  unfold Ports.fromStrL
  have hnc : ∀ c ∈ s ++ '-' :: t, c ≠ ',' := by
    intro c hc
    rcases List.mem_append.mp hc with h | h
    · exact (parseU16_no_sep s lo hs c h).1
    · rcases List.mem_cons.mp h with h | h
      · subst h; decide
      · exact (parseU16_no_sep t hi ht c h).1
  rw [splitChar_of_no_sep ',' _ hnc]
  have hnd : ∀ c ∈ s, c ≠ '-' := fun c hc => (parseU16_no_sep s lo hs c hc).2
  simp only [Ports.fromStrAux, parseToken, splitOnce_append '-' s t hnd, hs, ht,
    if_pos hle]
  rw [if_neg (by omega)]
  simp [Ports.fromStrAux]

theorem getD_of_drop : ∀ (l : List Nat) (n a : Nat) (t : List Nat),
    l.drop n = a :: t → l.getD n 0 = a := by
  intro l n
  induction n generalizing l with
  | zero => intro a t h; simp at h; simp [h]
  | succ m ih =>
    intro a t h
    cases l with
    | nil => simp at h
    | cons c l2 =>
      simp only [List.drop_succ_cons] at h
      simpa using ih l2 a t h

theorem drop_succ_of_drop : ∀ (l : List Nat) (n a : Nat) (t : List Nat),
    l.drop n = a :: t → l.drop (n + 1) = t := by
  intro l n
  induction n generalizing l with
  | zero => intro a t h; simp at h; simp [h]
  | succ m ih =>
    intro a t h
    cases l with
    | nil => simp at h
    | cons c l2 =>
      simp only [List.drop_succ_cons] at h
      simpa using ih l2 a t h

theorem length_of_drop_cons : ∀ (l : List Nat) (n a : Nat) (t : List Nat),
    l.drop n = a :: t → l.length = n + t.length + 1 := by
  intro l n
  induction n generalizing l with
  | zero => intro a t h; simp at h; simp [h]
  | succ m ih =>
    intro a t h
    cases l with
    | nil => simp at h
    | cons c l2 =>
      simp only [List.drop_succ_cons] at h
      have := ih l2 a t h
      simp [this]
      omega

theorem fmt_loop (vec : List Nat) :
    ∀ (rest : List Nat) (k start : Nat) (acc : String) (prev : Nat),
      1 ≤ k → start ≤ k - 1 → vec.drop (k - 1) = prev :: rest →
      finalRender vec ((fmtVecPairs (k - 1) (prev :: rest)).foldl (fmtStep vec) (start, acc)) =
        acc ++ collapse (vec.getD start 0) prev (decide (start = k - 1)) rest := by
  intro rest
  induction rest with
  | nil =>
    intro k start acc prev hk hs hdrop
    have hlen : vec.length = k := by
      have := length_of_drop_cons vec (k - 1) prev [] hdrop
      simp at this
      omega
    have hprev : vec.getD (k - 1) 0 = prev := getD_of_drop vec (k - 1) prev [] hdrop
    simp only [fmtVecPairs, List.foldl_nil, finalRender, collapse, hlen]
    by_cases h : start = k - 1
    · simp [h]
    · simp only [if_neg h, decide_eq_false h]
      rw [hprev]
      simp [String.append_assoc]
  | cons now rest2 ih =>
    intro k start acc prev hk hs hdrop
    have hk1 : k - 1 + 1 = k := by omega
    have hdropk : vec.drop k = now :: rest2 := by
      have := drop_succ_of_drop vec (k - 1) prev (now :: rest2) hdrop
      rwa [hk1] at this
    have hnow : vec.getD k 0 = now := getD_of_drop vec k now rest2 hdropk
    simp only [fmtVecPairs, List.foldl_cons, hk1]
    by_cases hgap : now - prev > 1
    · by_cases hsingle : start = k - 1
      · have hstep : fmtStep vec (start, acc) (prev, k, now) = (k, acc ++ toString prev ++ ",") := by
          simp [fmtStep, hgap, hsingle]
        rw [hstep]
        have h2 := ih (k + 1) k (acc ++ toString prev ++ ",") now (by omega) (by omega)
          (by simpa using hdropk)
        simp only [Nat.add_sub_cancel] at h2
        rw [h2, hnow]
        simp [collapse, hgap, hsingle, String.append_assoc]
      · have hstep : fmtStep vec (start, acc) (prev, k, now) =
            (k, acc ++ toString (vec.getD start 0) ++ "-" ++ toString prev ++ ",") := by
          simp [fmtStep, hgap, hsingle]
        rw [hstep]
        have h2 := ih (k + 1) k (acc ++ toString (vec.getD start 0) ++ "-" ++ toString prev ++ ",")
          now (by omega) (by omega) (by simpa using hdropk)
        simp only [Nat.add_sub_cancel] at h2
        rw [h2, hnow]
        simp [collapse, hgap, hsingle, String.append_assoc]
    · have hstep : fmtStep vec (start, acc) (prev, k, now) = (start, acc) := by
        simp [fmtStep, hgap]
      rw [hstep]
      have hslt : ¬ start = k := by omega
      have h2 := ih (k + 1) start acc now (by omega) (by omega) (by simpa using hdropk)
      simp only [Nat.add_sub_cancel] at h2
      rw [h2]
      simp [collapse, hgap, hslt]

theorem fmt_vec_eq_collapse (v : Nat) (tail : List Nat) :
    fmt_vec (v :: tail) = collapse v v true tail := by
  unfold fmt_vec
  have := fmt_loop (v :: tail) tail 1 0 "" v (by omega) (by omega) (by simp)
  simp only [Nat.sub_self] at this
  rw [this]
  simp [String.empty_append]

theorem specRunsAux_ne_nil : ∀ (rest : List Nat) (lo hi : Nat), specRunsAux lo hi rest ≠ [] := by
  intro rest
  induction rest with
  | nil => intro lo hi; simp [specRunsAux]
  | cons now rest2 ih =>
    intro lo hi
    simp only [specRunsAux]
    by_cases h : now = hi + 1
    · simpa [h] using ih lo now
    · simp [h]

theorem joinComma_cons (a : String) (l : List String) (h : l ≠ []) :
    joinComma (a :: l) = a ++ "," ++ joinComma l := by
  cases l with
  | nil => exact absurd rfl h
  | cons b rest => rfl

theorem collapse_spec : ∀ (rest : List Nat) (lo prev : Nat) (single : Bool),
    (single = true → lo = prev) → (single = false → lo < prev) →
    List.Chain' (· < ·) (prev :: rest) →
    collapse lo prev single rest = joinComma ((specRunsAux lo prev rest).map renderRun) := by
  intro rest
  induction rest with
  | nil =>
    intro lo prev single h1 h2 _
    cases single with
    | true =>
      have := h1 rfl
      simp [collapse, specRunsAux, renderRun, joinComma, this]
    | false =>
      have := h2 rfl
      simp [collapse, specRunsAux, renderRun, joinComma, Nat.ne_of_lt this]
  | cons now rest2 ih =>
    intro lo prev single h1 h2 hc
    have hpn : prev < now := (List.chain'_cons.mp hc).1
    have hc2 : List.Chain' (· < ·) (now :: rest2) := (List.chain'_cons.mp hc).2
    by_cases hgap : now - prev > 1
    · have hne : ¬ now = prev + 1 := by omega
      have hrec := ih now now true (fun _ => rfl) (fun h => Bool.noConfusion h) hc2
      have hnn : (specRunsAux now now rest2).map renderRun ≠ [] := by
        simp [specRunsAux_ne_nil]
      rw [collapse, if_pos hgap, hrec]
      rw [specRunsAux, if_neg hne, List.map_cons,
        joinComma_cons (renderRun (lo, prev)) _ hnn]
      cases single with
      | true =>
        have heq := h1 rfl
        simp [renderRun, heq, String.append_assoc]
      | false =>
        have hlt := h2 rfl
        simp [renderRun, Nat.ne_of_lt hlt, String.append_assoc]
    · have heq : now = prev + 1 := by omega
      have hlp : lo ≤ prev := by
        cases single with
        | true => exact le_of_eq (h1 rfl)
        | false => exact le_of_lt (h2 rfl)
      have hrec := ih lo now false (fun h => Bool.noConfusion h) (fun _ => by omega) hc2
      rw [collapse, if_neg hgap, hrec, specRunsAux, if_pos heq]

theorem fmt_vec_spec (l : List Nat) (hl : l ≠ []) (hc : List.Chain' (· < ·) l) :
    fmt_vec l = joinComma ((specRuns l).map renderRun) := by
  cases l with
  | nil => exact absurd rfl hl
  | cons v tail =>
    rw [fmt_vec_eq_collapse, specRuns]
    exact collapse_spec tail v v true (fun _ => rfl) (fun h => Bool.noConfusion h) hc

theorem fmtList_spec (l : List Nat) (hc : List.Chain' (· < ·) l) :
    fmtList l = specFormat l := by
  cases l with
  | nil => rfl
  | cons v tail =>
    have h := fmt_vec_spec (v :: tail) (by simp) hc
    simp [fmtList, specFormat, h]

theorem fmt_vec_pair (p : Nat) : fmt_vec [p, p] = toString p ++ "-" ++ toString p := by
  rw [fmt_vec_eq_collapse]
  simp [collapse]

theorem scan_ip_fst (env : ScanEnv) (ports : List Nat) (a : Addr) :
    ∀ t ∈ ScannerInner.scan_ip env ports a, t.1 = a := by
  intro t ht
  unfold ScannerInner.scan_ip at ht
  cases henv : env.probe a with
  | none => rw [henv] at ht; simp at ht
  | some r =>
    rw [henv] at ht
    simp only [List.mem_map] at ht
    obtain ⟨port, _, he⟩ := ht
    rw [← he]

theorem allOutcomes_mem (env : ScanEnv) (ports : List Nat) :
    ∀ (addrs : List Addr) (t : Addr × Nat × Bool), t ∈ allOutcomes env ports addrs →
      ∃ a ∈ addrs, t ∈ ScannerInner.scan_ip env ports a := by
  intro addrs
  induction addrs with
  | nil => intro t ht; simp [allOutcomes] at ht
  | cons a rest ih =>
    intro t ht
    rw [allOutcomes] at ht
    rcases List.mem_append.mp ht with h | h
    · exact ⟨a, List.mem_cons_self a rest, h⟩
    · obtain ⟨b, hb, hbt⟩ := ih t h
      exact ⟨b, List.mem_cons_of_mem a hb, hbt⟩

theorem foldOutcomes_none :
    ∀ (msgs : List (Addr × Nat × Bool)) (m : Addr → Option PortsStatus) (ip : Addr),
      (∀ t ∈ msgs, t.1 ≠ ip) → m ip = none → foldOutcomes msgs m ip = none := by
  intro msgs
  induction msgs with
  | nil => intro m ip _ hm; exact hm
  | cons t rest ih =>
    intro m ip h hm
    obtain ⟨a, port, opn⟩ := t
    rw [foldOutcomes]
    apply ih _ ip (fun u hu => h u (List.mem_cons_of_mem _ hu))
    have hne : ip ≠ a := fun he => h (a, port, opn) (List.mem_cons_self _ _) he.symm
    simp only [if_neg hne]
    exact hm

theorem foldOutcomes_count (ip : Addr) (p : Nat) (b : Bool) :
    ∀ (msgs : List (Addr × Nat × Bool)) (m : Addr → Option PortsStatus),
      (sideOf b (foldOutcomes msgs m ip)).count p =
        (sideOf b (m ip)).count p +
          msgs.countP (fun t => decide (t.1 = ip ∧ t.2.1 = p ∧ t.2.2 = b)) := by
  intro msgs
  induction msgs with
  | nil => intro m; simp [foldOutcomes]
  | cons t rest ih =>
    intro m
    obtain ⟨a, q, opn⟩ := t
    rw [foldOutcomes, ih, List.countP_cons]
    have key : (sideOf b (if ip = a then some (((m a).getD PortsStatus.new).record q opn) else m ip)).count p
        = (sideOf b (m ip)).count p +
          (if decide ((a, q, opn).1 = ip ∧ (a, q, opn).2.1 = p ∧ (a, q, opn).2.2 = b) then 1 else 0) := by
      by_cases hip : ip = a
      · subst hip
        rw [if_pos rfl]
        cases opn <;> cases b <;> by_cases hq : q = p <;>
          simp [sideOf, PortsStatus.record, hq, List.count_append, List.count_eq_zero] <;>
          exact fun h => hq h.symm
      · rw [if_neg hip]
        have : ¬ ((a, q, opn).1 = ip ∧ (a, q, opn).2.1 = p ∧ (a, q, opn).2.2 = b) := by
          intro hctr
          exact hip hctr.1.symm
        simp [this]
    simp only [key]
    omega

theorem countP_port (p : Nat) (g : Nat → Bool) (b : Bool) :
    ∀ (ports : List Nat), ports.countP (fun q => decide (q = p ∧ g q = b)) =
      if g p = b then ports.count p else 0 := by
  intro ports
  induction ports with
  | nil => simp
  | cons q rest ih =>
    rw [List.countP_cons, ih, List.count_cons]
    by_cases hq : q = p
    · subst hq
      by_cases hb : g q = b <;> simp [hb]
    · by_cases hb : g p = b <;> simp [hq, hb]

theorem countP_allOutcomes (env : ScanEnv) (ports : List Nat) (ip : Addr) (p : Nat) (b : Bool) :
    ∀ (addrs : List Addr), addrs.Nodup → ip ∈ addrs → (env.probe ip).isSome = true →
      (allOutcomes env ports addrs).countP
          (fun t => decide (t.1 = ip ∧ t.2.1 = p ∧ t.2.2 = b)) =
        if (ScannerInner.check_port p (env.connect ip p)).2 = b then ports.count p else 0 := by
  intro addrs
  induction addrs with
  | nil => intro _ h; simp at h
  | cons a rest ih =>
    intro hnd hmem hsome
    rw [allOutcomes, List.countP_append]
    rcases List.mem_cons.mp hmem with heq | hmem2
    · subst heq
      have hnotin : ip ∉ rest := (List.nodup_cons.mp hnd).1
      have h0 : (allOutcomes env ports rest).countP
          (fun t => decide (t.1 = ip ∧ t.2.1 = p ∧ t.2.2 = b)) = 0 := by
        rw [List.countP_eq_zero]
        intro t ht hpred
        obtain ⟨c, hc, hct⟩ := allOutcomes_mem env ports rest t ht
        have h1 : t.1 = c := scan_ip_fst env ports c t hct
        have h2 : t.1 = ip := (of_decide_eq_true hpred).1
        exact hnotin (h2 ▸ h1 ▸ hc)
      rw [h0]
      obtain ⟨r, hr⟩ := Option.isSome_iff_exists.mp hsome
      rw [ScannerInner.scan_ip, hr]
      rw [List.countP_map]
      have hpt : ((fun (t : Addr × Nat × Bool) => decide (t.1 = ip ∧ t.2.1 = p ∧ t.2.2 = b)) ∘
            (fun port => (ip, port, (ScannerInner.check_port port (env.connect ip port)).2))) =
          (fun q => decide (q = p ∧ (fun x => (ScannerInner.check_port x (env.connect ip x)).2) q = b)) := by
        funext q
        simp
      rw [hpt, countP_port p (fun x => (ScannerInner.check_port x (env.connect ip x)).2) b ports]
      omega
    · have hane : a ≠ ip := by
        intro he
        exact (List.nodup_cons.mp hnd).1 (he ▸ hmem2)
      have h0 : (ScannerInner.scan_ip env ports a).countP
          (fun t => decide (t.1 = ip ∧ t.2.1 = p ∧ t.2.2 = b)) = 0 := by
        rw [List.countP_eq_zero]
        intro t ht hpred
        have h1 : t.1 = a := scan_ip_fst env ports a t ht
        exact hane (h1 ▸ (of_decide_eq_true hpred).1)
      rw [h0, ih (List.nodup_cons.mp hnd).2 hmem2 hsome]
      omega

theorem scan_sideOf_count (msgs : List (Addr × Nat × Bool)) (ip : Addr) (p : Nat) (b : Bool) :
    (sideOf b (PortScanner.scan msgs ip)).count p =
      (sideOf b (foldOutcomes msgs (fun _ => none) ip)).count p := by
  unfold PortScanner.scan
  cases h : foldOutcomes msgs (fun _ => none) ip with
  | none => simp
  | some st =>
    cases b <;>
      simpa [sideOf, PortsStatus.sort] using (List.perm_insertionSort (· ≤ ·) _).count_eq p

/-- C1: the claim says a port is open iff the TCP connection is established
within the deadline, and that a refused or otherwise failed connect is closed.
The code (src/scanner.rs lines 140-152) classifies by `res.is_ok()` on the
timeout wrapper alone: establishment before the deadline is open and an
elapsed deadline is closed as claimed, but a connect that is actively refused
(or fails with any other connect-level error) before the deadline is
`Ok(Err(_))`, whose `is_ok()` is true, so the code classifies it OPEN — the
last two conjuncts evaluate the code at exactly those failing inputs. -/
theorem claim1_refused_classified_open :
    (ScannerInner.check_port 80 (Except.ok (Except.ok ()))).2 = true ∧
    (ScannerInner.check_port 80 (Except.error ())).2 = false ∧
    (ScannerInner.check_port 80 (Except.ok (Except.error IoErr.connectionRefused))).2 = true ∧
    (ScannerInner.check_port 80 (Except.ok (Except.error IoErr.other))).2 = true :=
  ⟨rfl, rfl, rfl, rfl⟩

/-- C2: the claim says an inverted range such as `22-20` yields a recoverable
parse-time error value.  The code (src/ports.rs lines 22-25) instead fires
`assert!`, a process abort, in every build profile. -/
theorem claim2_inverted_range_aborts :
    Ports.fromStr "22-20" =
      .fatal "Expected port range lower limit be lower than upper limit!" ∧
    Ports.fromStrRelease "22-20" =
      .fatal "Expected port range lower limit be lower than upper limit!" :=
  ⟨rfl, rfl⟩

/-- C3 counterexample: the claim says the probe identifier for index `i` is
`i mod 65536` (truncation to 16 bits).  The code computes
`idx % (u16::MAX as usize)`, i.e. `idx % 65535`; at index 65535 the code
produces 0 while the claim requires 65535. -/
theorem claim3_id_counterexample : probeId 65535 ≠ 65535 % 65536 := by decide

/-- C3 amended: the probe identifier attached to the address at index `i` is
`i mod 65535` (`u16::MAX`, one less than the claimed modulus). -/
theorem claim3_id_mod_65535 (idx : Nat) : probeId idx = idx % 65535 := by
  unfold probeId
  have h : idx % 65535 < 65535 := Nat.mod_lt idx (by omega)
  omega

/-- C4: the claim says parsing `0-65535` succeeds with all 65536 ports and
that the 16-bit computation `upper - lower + 1` cannot make it fail or abort.
In the dev profile (overflow checks on) that computation is `65535 + 1` in
`u16`, which aborts; only in the release profile (overflow wraps, feeding a
harmless capacity hint) does parsing succeed with the full ascending range of
65536 ports. -/
theorem claim4_full_range_overflow :
    Ports.fromStr "0-65535" = .fatal "attempt to add with overflow" ∧
    Ports.fromStrRelease "0-65535" = .ok (List.range' 0 65536) ∧
    (List.range' 0 65536).length = 65536 := by
  refine ⟨rfl, rfl, ?_⟩
  simp

/-- C5: an address whose reachability probe fails produces no port tasks and
no messages (`scan_ip` returns immediately), and the final mapping returned
by `scan` — for any interleaving `msgs` of the channel traffic — contains no
entry for that address at all. -/
theorem claim5_unreachable_absent (env : ScanEnv) (ports : List Nat) (addrs : List Addr)
    (ip : Addr) (msgs : List (Addr × Nat × Bool))
    (hdown : env.probe ip = none)
    (hperm : msgs.Perm (allOutcomes env ports addrs)) :
    ScannerInner.scan_ip env ports ip = [] ∧ PortScanner.scan msgs ip = none := by
  have hempty : ScannerInner.scan_ip env ports ip = [] := by
    unfold ScannerInner.scan_ip
    rw [hdown]
  refine ⟨hempty, ?_⟩
  have hno : ∀ t ∈ msgs, t.1 ≠ ip := by
    intro t ht he
    obtain ⟨a, _, hta⟩ := allOutcomes_mem env ports addrs t (hperm.mem_iff.mp ht)
    have h1 : t.1 = a := scan_ip_fst env ports a t hta
    have h2 : a = ip := by rw [← h1, he]
    rw [h2, hempty] at hta
    simp at hta
  unfold PortScanner.scan
  rw [foldOutcomes_none msgs _ ip hno rfl]
  rfl

/-- C5 witness: a concrete environment where the single target address 0 does
not answer the probe: no outcome is produced and the result map has no entry
for it. -/
theorem claim5_unreachable_absent_witness :
    ScannerInner.scan_ip ⟨fun _ => none, fun _ _ => Except.ok (Except.ok ())⟩ [80] 0 = [] ∧
    PortScanner.scan [] 0 = none :=
  claim5_unreachable_absent ⟨fun _ => none, fun _ _ => Except.ok (Except.ok ())⟩ [80] [0] 0 []
    rfl (by decide)

/-- C6: for an address in the (duplicate-free) target list whose probe
succeeds, and any interleaving `msgs` of the channel traffic, every port of
the port list lands in exactly one of the two lists of that address's status:
with multiplicity, a port specified n times contributes n entries, all to the
open list when its bounded connect attempt is classified open and all to the
closed list otherwise, and the two multiplicities always sum to the port's
multiplicity in the port list. -/
theorem claim6_each_port_exactly_once (env : ScanEnv) (ports : List Nat) (addrs : List Addr)
    (ip : Addr) (p : Nat) (msgs : List (Addr × Nat × Bool))
    (hnd : addrs.Nodup) (hmem : ip ∈ addrs) (hup : (env.probe ip).isSome = true)
    (hperm : msgs.Perm (allOutcomes env ports addrs)) :
    ((sideOf true (PortScanner.scan msgs ip)).count p =
      if (ScannerInner.check_port p (env.connect ip p)).2 then ports.count p else 0) ∧
    ((sideOf false (PortScanner.scan msgs ip)).count p =
      if (ScannerInner.check_port p (env.connect ip p)).2 then 0 else ports.count p) ∧
    (sideOf true (PortScanner.scan msgs ip)).count p +
      (sideOf false (PortScanner.scan msgs ip)).count p = ports.count p := by
  have hopen : (sideOf true (PortScanner.scan msgs ip)).count p =
      if (ScannerInner.check_port p (env.connect ip p)).2 = true then ports.count p else 0 := by
    rw [scan_sideOf_count, foldOutcomes_count, hperm.countP_eq,
      countP_allOutcomes env ports ip p true addrs hnd hmem hup]
    simp [sideOf, PortsStatus.new]
  have hclosed : (sideOf false (PortScanner.scan msgs ip)).count p =
      if (ScannerInner.check_port p (env.connect ip p)).2 = false then ports.count p else 0 := by
    rw [scan_sideOf_count, foldOutcomes_count, hperm.countP_eq,
      countP_allOutcomes env ports ip p false addrs hnd hmem hup]
    simp [sideOf, PortsStatus.new]
  cases hval : (ScannerInner.check_port p (env.connect ip p)).2 <;>
    rw [hval] at hopen hclosed <;> simp only [hopen, hclosed] <;> simp

/-- C6 witness: address 7 answers the probe, every connect times out, and the
port list names port 2 twice and port 3 once; port 2 then appears exactly
twice in the closed list, never in the open list, and the multiplicities sum
to its multiplicity in the port list. -/
theorem claim6_each_port_exactly_once_witness :
    ((sideOf true (PortScanner.scan
        (allOutcomes ⟨fun _ => some 1, fun _ _ => Except.error ()⟩ [2, 2, 3] [7]) 7)).count 2 =
      if (ScannerInner.check_port 2
          ((⟨fun _ => some 1, fun _ _ => Except.error ()⟩ : ScanEnv).connect 7 2)).2
        then ([2, 2, 3] : List Nat).count 2 else 0) ∧
    ((sideOf false (PortScanner.scan
        (allOutcomes ⟨fun _ => some 1, fun _ _ => Except.error ()⟩ [2, 2, 3] [7]) 7)).count 2 =
      if (ScannerInner.check_port 2
          ((⟨fun _ => some 1, fun _ _ => Except.error ()⟩ : ScanEnv).connect 7 2)).2
        then 0 else ([2, 2, 3] : List Nat).count 2) ∧
    (sideOf true (PortScanner.scan
        (allOutcomes ⟨fun _ => some 1, fun _ _ => Except.error ()⟩ [2, 2, 3] [7]) 7)).count 2 +
      (sideOf false (PortScanner.scan
        (allOutcomes ⟨fun _ => some 1, fun _ _ => Except.error ()⟩ [2, 2, 3] [7]) 7)).count 2 =
      ([2, 2, 3] : List Nat).count 2 :=
  claim6_each_port_exactly_once ⟨fun _ => some 1, fun _ _ => Except.error ()⟩ [2, 2, 3] [7] 7 2
    (allOutcomes ⟨fun _ => some 1, fun _ _ => Except.error ()⟩ [2, 2, 3] [7])
    (by decide) (by decide) rfl (List.Perm.refl _)

/-- C7: the parser's concrete behaviour and its general shape.  The five
concrete conjuncts are the specification's examples.  The sixth states that
successful parses concatenate across a comma — so the output follows input
token order and duplicate or overlapping specifications are preserved without
deduplication.  The seventh states that a single range token whose bounds
parse to `lo ≤ hi` (and whose reserve computation does not overflow) expands
to exactly the block `lo, lo+1, ..., hi`, which is strictly ascending. -/
theorem claim7_parsing :
    Ports.fromStr "80" = .ok [80] ∧
    Ports.fromStr "80,443" = .ok [80, 443] ∧
    Ports.fromStr "20-22" = .ok [20, 21, 22] ∧
    Ports.fromStr "20-22,80" = .ok [20, 21, 22, 80] ∧
    Ports.fromStr "abc" = .err ∧
    (∀ (checked : Bool) (cs1 cs2 : List Char) (l1 l2 : List Nat),
      Ports.fromStrL checked cs1 = .ok l1 → Ports.fromStrL checked cs2 = .ok l2 →
      Ports.fromStrL checked (cs1 ++ ',' :: cs2) = .ok (l1 ++ l2)) ∧
    (∀ (checked : Bool) (s t : List Char) (lo hi : Nat),
      parseU16 s = some lo → parseU16 t = some hi → lo ≤ hi → hi - lo + 1 < 65536 →
      Ports.fromStrL checked (s ++ '-' :: t) = .ok (List.range' lo (hi - lo + 1)) ∧
      List.Chain' (· < ·) (List.range' lo (hi - lo + 1))) := by
  refine ⟨rfl, rfl, rfl, rfl, rfl, fromStrL_append, ?_⟩
  intro checked s t lo hi hs ht hle hov
  exact ⟨fromStrL_range checked s t lo hi hs ht hle hov, chain'_lt_range' _ lo⟩

/-- C7 witness: instantiating the concatenation conjunct at `80,80` shows a
duplicated token is parsed without deduplication. -/
theorem claim7_parsing_witness :
    Ports.fromStrL true (("80").data ++ ',' :: ("80").data) = .ok [80, 80] :=
  claim7_parsing.2.2.2.2.2.1 true ("80").data ("80").data [80] [80] (by decide) (by decide)

/-- C8 counterexample: the claim covers every sorted list, but on the sorted
list with a duplicate entry the code's rendering (`5-5`) differs from the
claim's rule (two isolated maximal runs of consecutive values, `5,5`),
because the code's gap test `now - prev > 1` also keeps equal adjacent
values in one run. -/
theorem claim8_counterexample :
    List.Sorted (· ≤ ·) [5, 5] ∧ fmtList [5, 5] ≠ specFormat [5, 5] := by
  refine ⟨by decide, by decide⟩

/-- C8 amended: restricted to sorted lists without duplicates (strictly
ascending lists), the formatter is exactly the claim's rule: empty renders as
the literal, and otherwise each maximal run of consecutive integer values
becomes one token — a bare number when isolated, `lo-hi` otherwise — joined
by commas; the four concrete examples are as claimed. -/
theorem claim8_formatter (l : List Nat) (hc : List.Chain' (· < ·) l) :
    fmtList l = specFormat l ∧
    fmtList ([] : List Nat) = "none" ∧ fmtList [5] = "5" ∧
    fmtList [5, 6, 7] = "5-7" ∧ fmtList [1, 3, 4, 5, 9] = "1,3-5,9" :=
  ⟨fmtList_spec l hc, rfl, by decide, by decide, by decide⟩

/-- C8 witness: the general conjunct evaluated on a concrete strictly
ascending list. -/
theorem claim8_formatter_witness : fmtList [2, 3, 7] = specFormat [2, 3, 7] :=
  (claim8_formatter [2, 3, 7] (by simp [List.chain'_cons])).1

/-- C9: in the mapping `scan` returns after draining the channel, every
status present has both its lists sorted ascending. -/
theorem claim9_sorted (env : ScanEnv) (ports : List Nat) (addrs : List Addr)
    (msgs : List (Addr × Nat × Bool)) (ip : Addr) (st : PortsStatus)
    (hperm : msgs.Perm (allOutcomes env ports addrs))
    (hst : PortScanner.scan msgs ip = some st) :
    List.Sorted (· ≤ ·) st.openPorts ∧ List.Sorted (· ≤ ·) st.closedPorts := by
  unfold PortScanner.scan at hst
  cases h : foldOutcomes msgs (fun _ => none) ip with
  | none => rw [h] at hst; simp at hst
  | some st0 =>
    rw [h] at hst
    have hsort : PortsStatus.sort st0 = st := by simpa using hst
    rw [← hsort]
    exact ⟨List.sorted_insertionSort _ _, List.sorted_insertionSort _ _⟩

/-- C9 witness: with address 3 reachable and ports listed out of order, the
status returned for it has both lists sorted. -/
theorem claim9_sorted_witness :
    List.Sorted (· ≤ ·) (PortsStatus.mk [1, 2] []).openPorts ∧
    List.Sorted (· ≤ ·) (PortsStatus.mk [1, 2] []).closedPorts :=
  claim9_sorted ⟨fun _ => some 1, fun _ _ => Except.ok (Except.ok ())⟩ [2, 1] [3]
    (allOutcomes ⟨fun _ => some 1, fun _ _ => Except.ok (Except.ok ())⟩ [2, 1] [3]) 3
    (PortsStatus.mk [1, 2] []) (List.Perm.refl _) (by decide)

theorem gapRunsAux_ne_nil : ∀ (rest : List Nat) (lo prev : Nat) (single : Bool),
    gapRunsAux lo prev single rest ≠ [] := by
  intro rest
  induction rest with
  | nil => intro lo prev single; simp [gapRunsAux]
  | cons now rest2 ih =>
    intro lo prev single
    simp only [gapRunsAux]
    by_cases h : now - prev > 1
    · simp [h]
    · simpa [h] using ih lo now false

theorem collapse_gapRuns : ∀ (rest : List Nat) (lo prev : Nat) (single : Bool),
    (single = true → lo = prev) →
    collapse lo prev single rest =
      joinComma ((gapRunsAux lo prev single rest).map renderGapRun) := by
  intro rest
  induction rest with
  | nil =>
    intro lo prev single _
    cases single <;> simp [collapse, gapRunsAux, renderGapRun, joinComma]
  | cons now rest2 ih =>
    intro lo prev single h1
    by_cases hgap : now - prev > 1
    · have hnn : (gapRunsAux now now true rest2).map renderGapRun ≠ [] := by
        simp [gapRunsAux_ne_nil]
      rw [collapse, if_pos hgap, ih now now true (fun _ => rfl)]
      simp only [gapRunsAux, if_pos hgap, List.map_cons]
      rw [joinComma_cons _ _ hnn]
      cases single with
      | true => simp [renderGapRun, h1 rfl, String.append_assoc]
      | false => simp [renderGapRun, String.append_assoc]
    · rw [collapse, if_neg hgap, ih lo now false (fun h => Bool.noConfusion h)]
      simp [gapRunsAux, hgap]

theorem fmt_vec_gapRuns (v : Nat) (tail : List Nat) :
    fmt_vec (v :: tail) = joinComma ((gapRuns (v :: tail)).map renderGapRun) := by
  rw [fmt_vec_eq_collapse, gapRuns]
  exact collapse_gapRuns tail v v true (fun _ => rfl)

theorem gapRunsAux_head_false : ∀ (rest : List Nat) (lo prev : Nat),
    List.Chain' (· ≤ ·) (prev :: rest) →
    ∃ hi tailRuns, gapRunsAux lo prev false rest = (lo, hi, false) :: tailRuns ∧ prev ≤ hi := by
  intro rest
  induction rest with
  | nil => intro lo prev _; exact ⟨prev, [], rfl, le_refl prev⟩
  | cons now rest2 ih =>
    intro lo prev hc
    have hpn : prev ≤ now := (List.chain'_cons.mp hc).1
    have hc2 : List.Chain' (· ≤ ·) (now :: rest2) := (List.chain'_cons.mp hc).2
    by_cases hgap : now - prev > 1
    · exact ⟨prev, gapRunsAux now now true rest2, by simp [gapRunsAux, hgap], le_refl prev⟩
    · obtain ⟨hi, tailRuns, heq, hle⟩ := ih lo now hc2
      exact ⟨hi, tailRuns, by simp [gapRunsAux, hgap, heq], le_trans hpn hle⟩

theorem gapRunsAux_mem_dup : ∀ (rest : List Nat) (lo prev : Nat) (single : Bool) (p : Nat),
    List.Sorted (· ≤ ·) (prev :: rest) → lo ≤ prev → 2 ≤ (prev :: rest).count p →
    ∃ r ∈ gapRunsAux lo prev single rest, r.1 ≤ p ∧ p ≤ r.2.1 ∧ r.2.2 = false := by
  intro rest
  induction rest with
  | nil =>
    intro lo prev single p _ _ hcount
    have hle : (([prev] : List Nat).count p) ≤ 1 := List.count_le_length p [prev]
    omega
  | cons now rest2 ih =>
    intro lo prev single p hsort hlp hcount
    have hps := List.pairwise_cons.mp hsort
    have h1 : prev ≤ now := hps.1 now (List.mem_cons_self _ _)
    by_cases hp : prev = p
    · subst hp
      have hcount2 : 1 ≤ (now :: rest2).count prev := by
        rw [List.count_cons, if_pos (by simp : ((prev == prev) = true))] at hcount
        omega
      have hpmem : prev ∈ now :: rest2 := List.count_pos_iff.mp (by omega)
      have h2 : now ≤ prev := by
        rcases List.mem_cons.mp hpmem with he | hm
        · exact le_of_eq he.symm
        · exact (List.pairwise_cons.mp hps.2).1 prev hm
      have hnp : now = prev := le_antisymm h2 h1
      have hnogap : ¬ now - prev > 1 := by omega
      obtain ⟨hi, tailRuns, heq, hle⟩ := gapRunsAux_head_false rest2 lo now hps.2.chain'
      refine ⟨(lo, hi, false), ?_, hlp, le_trans (le_of_eq hnp.symm) hle, rfl⟩
      simp [gapRunsAux, hnogap, heq]
    · have hcount2 : 2 ≤ (now :: rest2).count p := by
        rw [List.count_cons] at hcount
        have hne : ¬ ((prev == p) = true) := by simpa using hp
        rw [if_neg hne] at hcount
        omega
      by_cases hgap : now - prev > 1
      · obtain ⟨r, hr, hc⟩ := ih now now true p hps.2 (le_refl now) hcount2
        refine ⟨r, ?_, hc⟩
        simp only [gapRunsAux, if_pos hgap]
        exact List.mem_cons_of_mem _ hr
      · obtain ⟨r, hr, hc⟩ := ih lo now false p hps.2 (le_trans hlp h1) hcount2
        refine ⟨r, ?_, hc⟩
        simp only [gapRunsAux, if_neg hgap]
        exact hr

theorem gapRunsAux_count_le_one : ∀ (rest : List Nat) (lo prev : Nat) (single : Bool) (p : Nat),
    List.Sorted (· ≤ ·) (prev :: rest) → lo ≤ prev →
    (gapRunsAux lo prev single rest).countP (fun r => decide (r.1 ≤ p ∧ p ≤ r.2.1)) ≤ 1 ∧
      (p < lo →
        (gapRunsAux lo prev single rest).countP (fun r => decide (r.1 ≤ p ∧ p ≤ r.2.1)) = 0) := by
  intro rest
  induction rest with
  | nil =>
    intro lo prev single p _ _
    constructor
    · simp only [gapRunsAux, List.countP_cons, List.countP_nil]
      split <;> omega
    · intro hplo
      have hnp : ¬ (lo ≤ p ∧ p ≤ prev) := fun h => by omega
      simp [gapRunsAux, List.countP_cons, hnp]
  | cons now rest2 ih =>
    intro lo prev single p hsort hlp
    have h1 : prev ≤ now := (List.pairwise_cons.mp hsort).1 now (List.mem_cons_self _ _)
    have hs2 : List.Sorted (· ≤ ·) (now :: rest2) := (List.pairwise_cons.mp hsort).2
    by_cases hgap : now - prev > 1
    · obtain ⟨iht1, iht2⟩ := ih now now true p hs2 (le_refl now)
      simp only [gapRunsAux, if_pos hgap, List.countP_cons]
      constructor
      · by_cases hpred : lo ≤ p ∧ p ≤ prev
        · have h0 := iht2 (by omega)
          rw [h0]
          split <;> omega
        · simp only [decide_eq_true_eq, if_neg hpred]
          omega
      · intro hplo
        have h0 := iht2 (by omega)
        have hnp : ¬ (lo ≤ p ∧ p ≤ prev) := fun h => by omega
        rw [h0]
        simp only [decide_eq_true_eq, if_neg hnp]
    · obtain ⟨iht1, iht2⟩ := ih lo now false p hs2 (le_trans hlp h1)
      simp only [gapRunsAux, if_neg hgap]
      exact ⟨iht1, iht2⟩

/-- C10: for every sorted non-empty list containing duplicate entries of a
port `p`, the formatter renders exactly one token per run of its gap test
`now - prev > 1` — so equal adjacent values belong to one run — and exactly
one run's interval contains `p`; that run has more than one element and is
rendered as a single `lo-hi` range token, into which the duplicates are
absorbed rather than being rendered as repeated comma-separated tokens; in
particular `[5,5]` renders `5-5` and `[2,2,3]` renders `2-3`. -/
theorem claim10_duplicates (l : List Nat) (p : Nat)
    (hsort : List.Sorted (· ≤ ·) l) (hdup : 2 ≤ l.count p) :
    fmtList l = joinComma ((gapRuns l).map renderGapRun) ∧
    (gapRuns l).countP (fun r => decide (r.1 ≤ p ∧ p ≤ r.2.1)) = 1 ∧
    (∃ r ∈ gapRuns l, r.1 ≤ p ∧ p ≤ r.2.1 ∧ r.2.2 = false ∧
      renderGapRun r = toString r.1 ++ "-" ++ toString r.2.1) ∧
    fmtList [5, 5] = "5-5" ∧ fmtList [2, 2, 3] = "2-3" := by
  cases l with
  | nil => simp at hdup
  | cons v tail =>
    obtain ⟨r, hrmem, hr1, hr2, hr3⟩ :=
      gapRunsAux_mem_dup tail v v true p hsort (le_refl v) hdup
    have hrmem2 : r ∈ gapRuns (v :: tail) := by rw [gapRuns]; exact hrmem
    refine ⟨?_, ?_, ⟨r, hrmem2, hr1, hr2, hr3, by simp [renderGapRun, hr3]⟩,
      by decide, by decide⟩
    · rw [show fmtList (v :: tail) = fmt_vec (v :: tail) from rfl, fmt_vec_gapRuns]
    · have hle := (gapRunsAux_count_le_one tail v v true p hsort (le_refl v)).1
      have hge : 0 < (gapRuns (v :: tail)).countP (fun r => decide (r.1 ≤ p ∧ p ≤ r.2.1)) := by
        rw [List.countP_pos_iff]
        exact ⟨r, hrmem2, by simp [hr1, hr2]⟩
      rw [gapRuns] at hge ⊢
      omega

/-- C10 witness: the sorted list `[1, 3, 3, 7]` duplicates port 3; its runs
under the gap test are three, exactly one of them contains 3, and that run is
rendered as the single range token `3-3` inside the output `1,3-3,7`. -/
theorem claim10_duplicates_witness :
    fmtList [1, 3, 3, 7] = joinComma ((gapRuns [1, 3, 3, 7]).map renderGapRun) ∧
    (gapRuns [1, 3, 3, 7]).countP (fun r => decide (r.1 ≤ 3 ∧ 3 ≤ r.2.1)) = 1 ∧
    (∃ r ∈ gapRuns [1, 3, 3, 7], r.1 ≤ 3 ∧ 3 ≤ r.2.1 ∧ r.2.2 = false ∧
      renderGapRun r = toString r.1 ++ "-" ++ toString r.2.1) ∧
    fmtList [5, 5] = "5-5" ∧ fmtList [2, 2, 3] = "2-3" :=
  claim10_duplicates [1, 3, 3, 7] 3 (by decide) (by decide)
